import Mathlib

set_option maxHeartbeats 1000000

/-!
Verification of the `diffeq` package: an adaptive-step Dormand-Prince
Runge-Kutta integrator (`diffeq.go`).

Go `float64` values are modelled as real numbers.  The one float-specific
quantity the code uses, the gap `math.Nextafter(x, +Inf) - x` appearing in
the minimum-step guard of `rungeKuttaStep`, is modelled by `ulp` below.
The two `for` loops (the retry loop of `rungeKuttaStep` and the stepping
loop of `rungeKuttaIntegrate`) are modelled with explicit fuel, an `Option`
layer whose `none` represents running past the fuel bound.

A second, NaN-aware model of the step controller (`FN`, `stepLoopN`, at the
end of the definitions) reproduces the IEEE/Go treatment of NaN — every
arithmetic operation, `math.Pow`, `math.Sqrt`, and the Go builtins
`min`/`max` propagate NaN, and every comparison with NaN is false — in
order to settle the claim about behaviour on non-finite derivative values.
-/

/-- The state vector type: a Go `[]float64` of length `n`. -/
abbrev Vec (n : ℕ) : Type := Fin n → ℝ

/-- Models `type DydxFunc func(dydx []float64, x float64, y []float64)`
(line 15): the derivative callback, as a pure function returning the vector
it writes into `dydx`. -/
abbrev DydxFunc (n : ℕ) : Type := ℝ → Vec n → Vec n

/-- Models `math.Nextafter(x, math.Inf(1)) - x`, the gap from `x` to the next
float64 toward `+∞`: `2^(-1074)` at zero (the smallest subnormal), otherwise
`2^(⌊log₂ |x|⌋ - 52)` (the spacing of float64 values at `x`'s binade). -/
noncomputable def ulp (x : ℝ) : ℝ :=
  if x = 0 then (2 : ℝ) ^ (-1074 : ℤ) else (2 : ℝ) ^ (⌊Real.logb 2 |x|⌋ - 52)

/-- The `tolerance` struct (lines 166-169). -/
structure Tolerance where
  abs : ℝ
  rel : ℝ

/-- The `rungeKutta` interface (lines 25-28): an error order together with the
stage computation, which returns the pair `(yPlusH, te)` that the Go method
writes into its two output buffers. -/
structure RungeKutta (n : ℕ) where
  errorOrder : ℕ
  yPlusH : DydxFunc n → ℝ → Vec n → ℝ → Vec n × Vec n

/-- The package's only error value, `ErrTooSmallStep` (line 11). -/
inductive DiffeqError where
  | tooSmallStep
deriving DecidableEq

/-- Stage abscissae `c` of the Dormand-Prince tableau (line 178). -/
noncomputable def dpC : ℕ → ℝ
  | 0 => 0
  | 1 => 1 / 5
  | 2 => 3 / 10
  | 3 => 4 / 5
  | 4 => 8 / 9
  | 5 => 1
  | 6 => 1
  | _ => 0

/-- Stage coupling matrix `a` of the Dormand-Prince tableau (lines 179-187);
entries outside the written 7×6 table are zero. -/
noncomputable def dpA : ℕ → ℕ → ℝ
  | 1, 0 => 1 / 5
  | 2, 0 => 3 / 40
  | 2, 1 => 9 / 40
  | 3, 0 => 44 / 45
  | 3, 1 => -56 / 15
  | 3, 2 => 32 / 9
  | 4, 0 => 19372 / 6561
  | 4, 1 => -25360 / 2187
  | 4, 2 => 64448 / 6561
  | 4, 3 => -212 / 729
  | 5, 0 => 9017 / 3168
  | 5, 1 => -355 / 33
  | 5, 2 => 46732 / 5247
  | 5, 3 => 49 / 176
  | 5, 4 => -5103 / 18656
  | 6, 0 => 35 / 384
  | 6, 1 => 0
  | 6, 2 => 500 / 1113
  | 6, 3 => 125 / 192
  | 6, 4 => -2187 / 6784
  | 6, 5 => 11 / 84
  | _, _ => 0

/-- Fifth-order combination weights `b` (line 188). -/
noncomputable def dpB : ℕ → ℝ
  | 0 => 35 / 384
  | 1 => 0
  | 2 => 500 / 1113
  | 3 => 125 / 192
  | 4 => -2187 / 6784
  | 5 => 11 / 84
  | 6 => 0
  | _ => 0

/-- Error-estimate weights `e` (line 189). -/
noncomputable def dpE : ℕ → ℝ
  | 0 => -71 / 57600
  | 1 => 0
  | 2 => 71 / 16695
  | 3 => -71 / 1920
  | 4 => 17253 / 339200
  | 5 => -22 / 525
  | 6 => 1 / 40
  | _ => 0

/-- The stage derivative list `k` after the first `i` iterations of the stage
loop of `(*dormandPrince).yPlusH` (lines 191-207): `k` starts as zero vectors
and is filled in order; the interpolation sum runs over `l < len(k)-1 = 6`,
reading zero for entries not yet filled (`List.getD` with a zero default). -/
noncomputable def dpK {n : ℕ} (f : DydxFunc n) (x : ℝ) (y : Vec n) (h : ℝ) : ℕ → List (Vec n)
  | 0 => []
  | i + 1 =>
    let ks := dpK f x y h i
    let xItp := x + dpC i * h
    let yItp : Vec n := fun j =>
      y j + ∑ l ∈ Finset.range 6, dpA i l * (ks.getD l fun _ => 0) j * h
    ks ++ [f xItp yItp]

/-- `(*dormandPrince).yPlusH` (lines 177-221): computes all seven stages and
returns the pair `(yPlusH, te)` written into the output buffers. -/
noncomputable def dpStep {n : ℕ} (f : DydxFunc n) (x : ℝ) (y : Vec n) (h : ℝ) :
    Vec n × Vec n :=
  let k := dpK f x y h 7
  (fun i => y i + ∑ j ∈ Finset.range 7, dpB j * h * (k.getD j fun _ => 0) i,
   fun i => ∑ j ∈ Finset.range 7, dpE j * (k.getD j fun _ => 0) i)

/-- The `dormandPrince` method value: `errorOrder() = 4` (lines 173-175) and
the stage computation `dpStep`. -/
noncomputable def dormandPrince (n : ℕ) : RungeKutta n :=
  ⟨4, dpStep⟩

/-- The scaled RMS error norm computed by `rungeKuttaStep` (lines 78-87) for a
candidate step of size `h` from `(x, y)`. -/
noncomputable def errorNorm {n : ℕ} (rk : RungeKutta n) (f : DydxFunc n) (x : ℝ)
    (y : Vec n) (tol : Tolerance) (h : ℝ) : ℝ :=
  let p := rk.yPlusH f x y h
  Real.sqrt ((∑ i, (p.2 i * h / (tol.abs + tol.rel * max |y i| |p.1 i|)) ^ 2) / n)

/-- The step end point after clamping to the interval end (lines 69-73):
`xPlusH`, reset to `xMax` when `x + h` overshoots. -/
noncomputable def clampX (x h xMax : ℝ) : ℝ := if x + h > xMax then xMax else x + h

/-- The step size after clamping to the interval end (lines 69-73): the code
recomputes `h = xPlusH - x` when `x + h` overshoots `xMax`. -/
noncomputable def clampH (x h xMax : ℝ) : ℝ := if x + h > xMax then xMax - x else h

/-- The accepted-step growth factor (lines 93-103), with
`exponent = -1/(errorOrder+1)`, `safety = 0.9`, `maxFactor = 10`: `maxFactor`
when the error norm is zero, else `min(safety * errorNorm^exponent,
maxFactor)`; additionally clamped to at most 1 after a rejection. -/
noncomputable def acceptFactor (order : ℕ) (en : ℝ) (rejected : Bool) : ℝ :=
  let factor : ℝ := if en = 0 then 10 else min (0.9 * en ^ (-1 / ((order : ℝ) + 1))) 10
  if rejected then min 1 factor else factor

/-- The rejected-step shrink factor (line 108), with `minFactor = 0.2`:
`max(safety * errorNorm^exponent, minFactor)`. -/
noncomputable def rejectFactor (order : ℕ) (en : ℝ) : ℝ :=
  max (0.9 * en ^ (-1 / ((order : ℝ) + 1))) 0.2

/-- `rungeKuttaStep` (lines 61-112).  The fuel argument bounds the retry loop;
`none` models a run that would iterate past the fuel.  On success the result
is `(xPlusH, yPlusH, te, newH)`: the Go function returns `(xPlusH, newH)` and
writes `yPlusH`, `te` through its buffer arguments. -/
noncomputable def rungeKuttaStepLoop {n : ℕ} (rk : RungeKutta n) (f : DydxFunc n)
    (x : ℝ) (y : Vec n) (xMax : ℝ) (tol : Tolerance) :
    ℕ → ℝ → Bool → Option (Except DiffeqError (ℝ × Vec n × Vec n × ℝ))
  | 0, _, _ => none
  | fuel + 1, h, rejected =>
    -- minStep := 10 * math.Abs(math.Nextafter(x, math.Inf(1))-x) (line 62)
    if h < 10 * |ulp x| then some (.error .tooSmallStep)
    else
      let h' := clampH x h xMax
      let p := rk.yPlusH f x y h'
      let en := errorNorm rk f x y tol h'
      if en < 1 then
        some (.ok (clampX x h xMax, p.1, p.2, h' * acceptFactor rk.errorOrder en rejected))
      else
        rungeKuttaStepLoop rk f x y xMax tol fuel (h' * rejectFactor rk.errorOrder en) true

/-- `getFirstStep` (lines 115-164): the Hairer/Nørsett/Wanner initial step
heuristic. -/
noncomputable def getFirstStep {n : ℕ} (rk : RungeKutta n) (f : DydxFunc n)
    (xspan : ℝ × ℝ) (y0 : Vec n) (tol : Tolerance) : ℝ :=
  let dydx0 := f xspan.1 y0
  let scale : Vec n := fun i => tol.abs + |y0 i| * tol.rel
  let d0 := Real.sqrt ((∑ i, (y0 i / scale i) ^ 2) / n)
  let d1 := Real.sqrt ((∑ i, (dydx0 i / scale i) ^ 2) / n)
  let h0 := min (if d0 < 1e-5 ∨ d1 < 1e-6 then 1e-6 else 0.01 * d0 / d1)
    (xspan.2 - xspan.1)
  let y1 : Vec n := fun i => y0 i + h0 * dydx0 i
  let dydx1 := f (xspan.1 + h0) y1
  let d2 := Real.sqrt ((∑ i, ((dydx1 i - dydx0 i) / scale i) ^ 2) / n) / h0
  let h1 :=
    if d1 ≤ 1e-15 ∧ d2 ≤ 1e-15 then max 1e-6 (h0 * 1e-3)
    else (0.01 / max d1 d2) ^ ((1 : ℝ) / ((rk.errorOrder : ℝ) + 1))
  min (min (100 * h0) h1) (xspan.2 - xspan.1)

/-- The intermediate `h0` of `getFirstStep` (lines 124-139): the `d0`/`d1`
guess, clamped to the interval length. -/
noncomputable def firstStepH0 {n : ℕ} (f : DydxFunc n) (xspan : ℝ × ℝ) (y0 : Vec n)
    (tol : Tolerance) : ℝ :=
  let dydx0 := f xspan.1 y0
  let scale : Vec n := fun i => tol.abs + |y0 i| * tol.rel
  let d0 := Real.sqrt ((∑ i, (y0 i / scale i) ^ 2) / n)
  let d1 := Real.sqrt ((∑ i, (dydx0 i / scale i) ^ 2) / n)
  min (if d0 < 1e-5 ∨ d1 < 1e-6 then 1e-6 else 0.01 * d0 / d1) (xspan.2 - xspan.1)

/-- The intermediate `h1` of `getFirstStep` (lines 141-161), from the
curvature estimate `d2` of one explicit Euler sub-step of size `h0`. -/
noncomputable def firstStepH1 {n : ℕ} (rk : RungeKutta n) (f : DydxFunc n)
    (xspan : ℝ × ℝ) (y0 : Vec n) (tol : Tolerance) : ℝ :=
  let dydx0 := f xspan.1 y0
  let scale : Vec n := fun i => tol.abs + |y0 i| * tol.rel
  let d1 := Real.sqrt ((∑ i, (dydx0 i / scale i) ^ 2) / n)
  let h0 := firstStepH0 f xspan y0 tol
  let y1 : Vec n := fun i => y0 i + h0 * dydx0 i
  let dydx1 := f (xspan.1 + h0) y1
  let d2 := Real.sqrt ((∑ i, ((dydx1 i - dydx0 i) / scale i) ^ 2) / n) / h0
  if d1 ≤ 1e-15 ∧ d2 ≤ 1e-15 then max 1e-6 (h0 * 1e-3)
  else (0.01 / max d1 d2) ^ ((1 : ℝ) / ((rk.errorOrder : ℝ) + 1))

/-- The arguments at which `getFirstStep` invokes `dydxFunc`: its two call
sites, line 117 (`dydxFunc(dydx0, xspan[0], y0)`) and line 147
(`dydxFunc(dydx1, xspan[0]+h0, y1)`). -/
noncomputable def getFirstStepCalls {n : ℕ} (f : DydxFunc n) (xspan : ℝ × ℝ)
    (y0 : Vec n) (tol : Tolerance) : List (ℝ × Vec n) :=
  let dydx0 := f xspan.1 y0
  let scale : Vec n := fun i => tol.abs + |y0 i| * tol.rel
  let d0 := Real.sqrt ((∑ i, (y0 i / scale i) ^ 2) / n)
  let d1 := Real.sqrt ((∑ i, (dydx0 i / scale i) ^ 2) / n)
  let h0 := min (if d0 < 1e-5 ∨ d1 < 1e-6 then 1e-6 else 0.01 * d0 / d1)
    (xspan.2 - xspan.1)
  let y1 : Vec n := fun i => y0 i + h0 * dydx0 i
  [(xspan.1, y0), (xspan.1 + h0, y1)]

/-- The stepping loop of `rungeKuttaIntegrate` (lines 41-56), returning the
trajectory points appended after the seed `(x0, y0)`; `none` is fuel
exhaustion of either loop. -/
noncomputable def driverLoop {n : ℕ} (rk : RungeKutta n) (f : DydxFunc n) (xMax : ℝ)
    (tol : Tolerance) (sfuel : ℕ) :
    ℕ → ℝ → Vec n → ℝ → Option (Except DiffeqError (List ℝ × List (Vec n)))
  | 0, _, _, _ => none
  | fuel + 1, x, y, h =>
    if x < xMax then
      match rungeKuttaStepLoop rk f x y xMax tol sfuel h false with
      | none => none
      | some (.error e) => some (.error e)
      | some (.ok (xPlusH, yPlusH, _, newH)) =>
        match driverLoop rk f xMax tol sfuel fuel xPlusH yPlusH newH with
        | none => none
        | some (.error e) => some (.error e)
        | some (.ok (xs, ys)) => some (.ok (xPlusH :: xs, yPlusH :: ys))
    else some (.ok ([], []))

/-- `rungeKuttaIntegrate` (lines 30-59): seeds the trajectory with
`(xspan.1, y0)`, bootstraps `h` with `getFirstStep` under the built-in
tolerance `{abs: 1e-6, rel: 1e-3}` (line 34), and runs the stepping loop.
On success the result is `(xs, ys, none)`; on a step error it is
`([], [], some e)`, mirroring `return nil, nil, errors.Wrap(err, "")`
(line 45); the outer `none` is fuel exhaustion. -/
noncomputable def rungeKuttaIntegrate {n : ℕ} (rk : RungeKutta n) (f : DydxFunc n)
    (xspan : ℝ × ℝ) (y0 : Vec n) (fuel sfuel : ℕ) :
    Option (List ℝ × List (Vec n) × Option DiffeqError) :=
  let tol : Tolerance := ⟨1e-6, 1e-3⟩
  let h := getFirstStep rk f xspan y0 tol
  match driverLoop rk f xspan.2 tol sfuel fuel xspan.1 y0 h with
  | none => none
  | some (.error e) => some ([], [], some e)
  | some (.ok (xs, ys)) => some (xspan.1 :: xs, y0 :: ys, none)

/-- `DormandPrince` (lines 20-23): the public entry point. -/
noncomputable def DormandPrince {n : ℕ} (f : DydxFunc n) (xspan : ℝ × ℝ)
    (y0 : Vec n) (fuel sfuel : ℕ) :
    Option (List ℝ × List (Vec n) × Option DiffeqError) :=
  rungeKuttaIntegrate (dormandPrince n) f xspan y0 fuel sfuel

/-! ### NaN-aware model of the step controller

Go float64 with NaN: `none` is a non-finite value (the runs studied below
only ever produce NaN), `some x` a finite value.  Every arithmetic
operation, `math.Sqrt`, `math.Pow` and the Go builtins `min`/`max`
propagate NaN, and every ordered comparison involving NaN is false. -/

abbrev FN := Option ℝ

/-- A derivative callback over NaN-aware values. -/
abbrev DydxFuncN (n : ℕ) : Type := FN → (Fin n → FN) → Fin n → FN

/-- float64 addition. -/
def fnAdd : FN → FN → FN
  | some a, some b => some (a + b)
  | _, _ => none

/-- float64 subtraction. -/
def fnSub : FN → FN → FN
  | some a, some b => some (a - b)
  | _, _ => none

/-- float64 multiplication; note `0 * NaN = NaN`. -/
def fnMul : FN → FN → FN
  | some a, some b => some (a * b)
  | _, _ => none

/-- float64 division; division by zero is non-finite (`±Inf` or NaN). -/
noncomputable def fnDiv : FN → FN → FN
  | some a, some b => if b = 0 then none else some (a / b)
  | _, _ => none

/-- `math.Abs`. -/
def fnAbs : FN → FN
  | some a => some |a|
  | none => none

/-- `math.Sqrt`: NaN on negative arguments. -/
noncomputable def fnSqrt : FN → FN
  | some a => if a < 0 then none else some (Real.sqrt a)
  | none => none

/-- `math.Pow` on the cases the code can reach: nonnegative bases follow
`Real.rpow`; a negative base with an integer exponent gives the signed power;
a negative base with a non-integer exponent is NaN.  (`Pow(0, negative)`,
which is `+Inf` in Go, is collapsed to `none` like every non-finite value;
no run studied below reaches it.) -/
noncomputable def fnPow : FN → FN → FN
  | some a, some b =>
    if 0 ≤ a then some (a ^ b)
    else if (⌊b⌋ : ℝ) = b then some ((-1) ^ ⌊b⌋.natAbs * |a| ^ b)
    else none
  | _, _ => none

/-- The Go builtin `max`: NaN if either argument is NaN. -/
def fnMax : FN → FN → FN
  | some a, some b => some (max a b)
  | _, _ => none

/-- The Go builtin `min`: NaN if either argument is NaN. -/
def fnMin : FN → FN → FN
  | some a, some b => some (min a b)
  | _, _ => none

/-- float64 `<`: false whenever either side is NaN. -/
def fnLt : FN → FN → Prop
  | some a, some b => a < b
  | _, _ => False

noncomputable instance : ∀ a b : FN, Decidable (fnLt a b)
  | some a, some b => inferInstanceAs (Decidable (a < b))
  | some _, none => isFalse fun h => h
  | none, _ => isFalse fun h => h

/-- `math.Nextafter(x, +Inf) - x` over NaN-aware values. -/
noncomputable def fnUlp : FN → FN
  | some a => some (ulp a)
  | none => none

/-- Summation of float64 values, `none`-absorbing like NaN. -/
def fnSum (l : List FN) : FN := l.foldr fnAdd (some 0)

/-- The stage list of `(*dormandPrince).yPlusH` over NaN-aware values;
same structure as `dpK`. -/
noncomputable def dpKN {n : ℕ} (f : DydxFuncN n) (x : FN) (y : Fin n → FN) (h : FN) :
    ℕ → List (Fin n → FN)
  | 0 => []
  | i + 1 =>
    let ks := dpKN f x y h i
    let xItp := fnAdd x (fnMul (some (dpC i)) h)
    let yItp : Fin n → FN := fun j =>
      fnAdd (y j) (fnSum ((List.range 6).map fun l =>
        fnMul (fnMul (some (dpA i l)) ((ks.getD l fun _ => some 0) j)) h))
    ks ++ [f xItp yItp]

/-- `(*dormandPrince).yPlusH` over NaN-aware values; same structure as
`dpStep`. -/
noncomputable def dpStepN {n : ℕ} (f : DydxFuncN n) (x : FN) (y : Fin n → FN) (h : FN) :
    (Fin n → FN) × (Fin n → FN) :=
  let k := dpKN f x y h 7
  (fun i => fnAdd (y i) (fnSum ((List.range 7).map fun j =>
      fnMul (fnMul (some (dpB j)) h) ((k.getD j fun _ => some 0) i))),
   fun i => fnSum ((List.range 7).map fun j =>
      fnMul (some (dpE j)) ((k.getD j fun _ => some 0) i)))

/-- The error norm of `rungeKuttaStep` (lines 78-87) over NaN-aware values,
for the Dormand-Prince method. -/
noncomputable def errorNormN {n : ℕ} (f : DydxFuncN n) (x : FN) (y : Fin n → FN)
    (tolAbs tolRel : ℝ) (h : FN) : FN :=
  let p := dpStepN f x y h
  fnSqrt (fnDiv
    (fnSum ((List.finRange n).map fun i =>
      fnPow (fnDiv (fnMul (p.2 i) h)
        (fnAdd (some tolAbs) (fnMul (some tolRel) (fnMax (fnAbs (y i)) (fnAbs (p.1 i))))))
        (some 2)))
    (some n))

/-- `rungeKuttaStep` (lines 61-112) over NaN-aware values, for the
Dormand-Prince method (`errorOrder = 4`); same structure as
`rungeKuttaStepLoop`. -/
noncomputable def stepLoopN {n : ℕ} (f : DydxFuncN n) (x : FN) (y : Fin n → FN)
    (xMax : FN) (tolAbs tolRel : ℝ) :
    ℕ → FN → Bool → Option (Except DiffeqError (FN × (Fin n → FN) × (Fin n → FN) × FN))
  | 0, _, _ => none
  | fuel + 1, h, rejected =>
    let minStep := fnMul (some 10) (fnAbs (fnUlp x))
    if fnLt h minStep then some (.error .tooSmallStep)
    else
      let xPlusH := if fnLt xMax (fnAdd x h) then xMax else fnAdd x h
      let h' := if fnLt xMax (fnAdd x h) then fnSub xMax x else h
      let p := dpStepN f x y h'
      let en := errorNormN f x y tolAbs tolRel h'
      let exponent : FN := some (-1 / (4 + 1))
      if fnLt en (some 1) then
        let factor := if en = some 0 then some 10
          else fnMin (fnMul (some 0.9) (fnPow en exponent)) (some 10)
        let factor' := if rejected then fnMin (some 1) factor else factor
        some (.ok (xPlusH, p.1, p.2, fnMul h' factor'))
      else
        stepLoopN f x y xMax tolAbs tolRel fuel
          (fnMul h' (fnMax (fnMul (some 0.9) (fnPow en exponent)) (some 0.2))) true

/-! ### Store-instrumented model of the driver's buffer usage

Go slices are references into allocated buffers.  `Store n` is the list of
buffers allocated by one `rungeKuttaIntegrate` call that are reachable from
the returned `ys`, a slice value being an index into it; index 0 is the
caller's `y0` slice.  The internal buffers of the stage evaluator (`k`,
`yItp`, `scale`) are freshly allocated inside each call and never escape,
so they are not tracked. -/

abbrev Store (n : ℕ) := List (Vec n)

/-- The stepping loop of `rungeKuttaIntegrate` instrumented with the store.
Per iteration it allocates a fresh `yPlusH` buffer (line 42), has the step
write that buffer and the `te` buffer (line 43, modelled by `List.set` with
the values the pure `rungeKuttaStepLoop` computes), appends the `yPlusH`
reference to `ys` (line 50), and copies the `yPlusH` contents into the
working buffer `y` (line 54). -/
noncomputable def driverLoopAlloc {n : ℕ} (rk : RungeKutta n) (f : DydxFunc n)
    (xMax : ℝ) (tol : Tolerance) (sfuel : ℕ) (yRef teRef : ℕ) :
    ℕ → ℝ → ℝ → Store n → Option (Except DiffeqError (List ℝ × List ℕ × Store n))
  | 0, _, _, _ => none
  | fuel + 1, x, h, st =>
    if x < xMax then
      let yphRef := st.length
      let st1 := st ++ [(fun _ => 0 : Vec n)]
      match rungeKuttaStepLoop rk f x (st1.getD yRef (fun _ => 0 : Vec n)) xMax tol sfuel h false with
      | none => none
      | some (.error e) => some (.error e)
      | some (.ok (xPlusH, yph, te, newH)) =>
        let st2 := (st1.set yphRef yph).set teRef te
        let st3 := st2.set yRef (st2.getD yphRef (fun _ => 0 : Vec n))
        match driverLoopAlloc rk f xMax tol sfuel yRef teRef fuel xPlusH newH st3 with
        | none => none
        | some (.error e) => some (.error e)
        | some (.ok (xs, ys, st4)) => some (.ok (xPlusH :: xs, yphRef :: ys, st4))
    else some (.ok ([], [], st))

/-- `rungeKuttaIntegrate` instrumented with the store.  The returned `ys` is a
list of buffer references: it seeds with a reference to the caller's `y0`
buffer itself (line 32, `ys = append(ys, y0)`, no copy); the working buffer
`y` is allocated and filled with a copy of `y0` (lines 38-39, reference 1) and
`te` is allocated (line 40, reference 2). -/
noncomputable def rungeKuttaIntegrateAlloc {n : ℕ} (rk : RungeKutta n) (f : DydxFunc n)
    (xspan : ℝ × ℝ) (y0 : Vec n) (fuel sfuel : ℕ) :
    Option (List ℝ × List ℕ × Store n × Option DiffeqError) :=
  let tol : Tolerance := ⟨1e-6, 1e-3⟩
  let h := getFirstStep rk f xspan y0 tol
  let st : Store n := [y0] ++ [y0] ++ [(fun _ => 0 : Vec n)]
  match driverLoopAlloc rk f xspan.2 tol sfuel 1 2 fuel xspan.1 h st with
  | none => none
  | some (.error e) => some ([], [], st, some e)
  | some (.ok (xs, ys, st')) => some (xspan.1 :: xs, 0 :: ys, st', none)

/-! ### Concrete inputs used in witnesses and counterexamples -/

/-- The zero vector. -/
noncomputable def zeroVec (n : ℕ) : Vec n := fun _ => 0

/-- The zero derivative function `f(x, y) = 0`. -/
noncomputable def zeroDydx (n : ℕ) : DydxFunc n := fun _ _ _ => 0

/-- The derivative `f(x, y) = x⁻¹` (independent of `y`); its scaled error
norm is the same for every step size, and larger than 1. -/
noncomputable def invDydx : DydxFunc 1 := fun x _ _ => x⁻¹

/-- A derivative that returns NaN everywhere. -/
def nanDydx (n : ℕ) : DydxFuncN n := fun _ _ _ => none

/-! ### Helper lemmas -/

theorem ulp_pos (x : ℝ) : 0 < ulp x := by
  unfold ulp; split <;> positivity

theorem minStep_pos (x : ℝ) : 0 < 10 * |ulp x| := by
  have := ulp_pos x
  have : |ulp x| > 0 := abs_pos.mpr (ne_of_gt this)
  linarith

theorem dpK_length {n : ℕ} (f : DydxFunc n) (x : ℝ) (y : Vec n) (h : ℝ) (i : ℕ) :
    (dpK f x y h i).length = i := by
  induction i with
  | zero => simp [dpK]
  | succ i ih => simp [dpK, ih]

theorem getD_replicate {α : Type} (m j : ℕ) (a : α) :
    (List.replicate m a).getD j a = a := by
  simp only [List.getD_eq_getElem?_getD, List.getElem?_replicate]
  split <;> simp

theorem dpK_zero {n : ℕ} (x : ℝ) (y : Vec n) (h : ℝ) (i : ℕ) :
    dpK (zeroDydx n) x y h i = List.replicate i (zeroVec n) := by
  induction i with
  | zero => simp [dpK]
  | succ i ih =>
    rw [List.replicate_succ']
    simp only [dpK, ih]
    congr 1

theorem getD_replicate_zero {n : ℕ} (m j : ℕ) :
    (List.replicate m (zeroVec n)).getD j (fun _ => 0) = zeroVec n := by
  simp only [List.getD_eq_getElem?_getD, List.getElem?_replicate]
  split <;> rfl

theorem dpStep_zero {n : ℕ} (x : ℝ) (y : Vec n) (h : ℝ) :
    dpStep (zeroDydx n) x y h = (y, zeroVec n) := by
  unfold dpStep
  rw [dpK_zero]
  dsimp only
  refine Prod.ext ?_ ?_
  · funext i
    show y i + ∑ j ∈ Finset.range 7,
      dpB j * h * ((List.replicate 7 (zeroVec n)).getD j fun _ => 0) i = y i
    rw [Finset.sum_eq_zero, add_zero]
    intro j _
    rw [getD_replicate_zero]
    simp [zeroVec]
  · funext i
    show (∑ j ∈ Finset.range 7,
      dpE j * ((List.replicate 7 (zeroVec n)).getD j fun _ => 0) i) = zeroVec n i
    rw [Finset.sum_eq_zero]
    · simp [zeroVec]
    intro j _
    rw [getD_replicate_zero]
    simp [zeroVec]

theorem errorNorm_zeroDydx {n : ℕ} (x : ℝ) (y : Vec n) (tol : Tolerance) (h : ℝ) :
    errorNorm (dormandPrince n) (zeroDydx n) x y tol h = 0 := by
  unfold errorNorm
  simp [dormandPrince, dpStep_zero, zeroVec]

theorem dpK_succ {n : ℕ} (f : DydxFunc n) (x : ℝ) (y : Vec n) (h : ℝ) (i : ℕ) :
    dpK f x y h (i + 1) = dpK f x y h i ++
      [f (x + dpC i * h) (fun j =>
        y j + ∑ l ∈ Finset.range 6, dpA i l * ((dpK f x y h i).getD l fun _ => 0) j * h)] :=
  rfl

theorem dpStep_fst {n : ℕ} (f : DydxFunc n) (x : ℝ) (y : Vec n) (h : ℝ) :
    (dpStep f x y h).1 =
      fun i => y i + ∑ j ∈ Finset.range 7, dpB j * h * ((dpK f x y h 7).getD j fun _ => 0) i :=
  rfl

theorem dpStep_snd {n : ℕ} (f : DydxFunc n) (x : ℝ) (y : Vec n) (h : ℝ) :
    (dpStep f x y h).2 =
      fun i => ∑ j ∈ Finset.range 7, dpE j * ((dpK f x y h 7).getD j fun _ => 0) i :=
  rfl

theorem dpK7_getD_lt6 {n : ℕ} (f : DydxFunc n) (x : ℝ) (y : Vec n) (h : ℝ)
    (d : Vec n) (l : ℕ) (hl : l < 6) :
    (dpK f x y h 7).getD l d = (dpK f x y h 6).getD l d := by
  rw [dpK_succ, List.getD_eq_getElem?_getD, List.getD_eq_getElem?_getD,
    List.getElem?_append_left (by rw [dpK_length]; exact hl)]

theorem dpA6_eq_dpB (l : ℕ) (hl : l < 6) : dpA 6 l = dpB l := by
  interval_cases l <;> simp [dpA, dpB]

/-- Claim C8: in the Dormand-Prince stage evaluator, the interpolated
evaluation point of the last stage (index 6) equals the trial next point
`yPlusH` — because `c[6] = 1`, row `a[6]` equals the `b` weights and
`b[6] = 0` — so `k[6] = f(x + h, yPlusH)`: the FSAL property, holding even
though each step recomputes all 7 stages. -/
theorem claimC8_fsal {n : ℕ} (f : DydxFunc n) (x : ℝ) (y : Vec n) (h : ℝ) :
    (dpK f x y h 7).getD 6 (fun _ => 0) = f (x + h) (dpStep f x y h).1
    ∧ (fun j => y j + ∑ l ∈ Finset.range 6,
        dpA 6 l * ((dpK f x y h 6).getD l fun _ => 0) j * h) = (dpStep f x y h).1
    ∧ dpC 6 = 1 ∧ dpB 6 = 0
    ∧ dpA 6 0 = dpB 0 ∧ dpA 6 1 = dpB 1 ∧ dpA 6 2 = dpB 2
    ∧ dpA 6 3 = dpB 3 ∧ dpA 6 4 = dpB 4 ∧ dpA 6 5 = dpB 5 := by
  have hyItp : (fun j => y j + ∑ l ∈ Finset.range 6,
      dpA 6 l * ((dpK f x y h 6).getD l fun _ => 0) j * h) = (dpStep f x y h).1 := by
    rw [dpStep_fst]
    funext j
    conv_rhs => rw [Finset.sum_range_succ]
    have hb6 : dpB 6 = 0 := by simp [dpB]
    rw [hb6, zero_mul, zero_mul, add_zero]
    congr 1
    refine Finset.sum_congr rfl ?_
    intro l hl
    have hl6 : l < 6 := Finset.mem_range.mp hl
    rw [dpK7_getD_lt6 f x y h _ l hl6, dpA6_eq_dpB l hl6]
    ring
  refine ⟨?_, hyItp, by simp [dpC], by simp [dpB],
    dpA6_eq_dpB 0 (by norm_num), dpA6_eq_dpB 1 (by norm_num), dpA6_eq_dpB 2 (by norm_num),
    dpA6_eq_dpB 3 (by norm_num), dpA6_eq_dpB 4 (by norm_num), dpA6_eq_dpB 5 (by norm_num)⟩
  rw [dpK_succ, List.getD_eq_getElem?_getD,
    List.getElem?_append_right (by rw [dpK_length])]
  rw [dpK_length]
  simp only [Nat.sub_self, List.getElem?_cons_zero, Option.getD_some]
  rw [hyItp]
  have hc6 : dpC 6 = 1 := by simp [dpC]
  rw [hc6, one_mul]

theorem getFirstStep_eq {n : ℕ} (rk : RungeKutta n) (f : DydxFunc n) (xspan : ℝ × ℝ)
    (y0 : Vec n) (tol : Tolerance) :
    getFirstStep rk f xspan y0 tol =
      min (min (100 * firstStepH0 f xspan y0 tol) (firstStepH1 rk f xspan y0 tol))
        (xspan.2 - xspan.1) :=
  rfl

theorem firstStepH0_pos {n : ℕ} (f : DydxFunc n) (xspan : ℝ × ℝ) (y0 : Vec n)
    (tol : Tolerance) (hx : xspan.1 < xspan.2) :
    0 < firstStepH0 f xspan y0 tol := by
  unfold firstStepH0
  dsimp only
  refine lt_min ?_ (by linarith)
  split
  · norm_num
  · rename_i hcond
    push_neg at hcond
    have hd0 : (0 : ℝ) < 1e-5 := by norm_num
    have hd1 : (0 : ℝ) < 1e-6 := by norm_num
    exact div_pos (by nlinarith [hcond.1]) (lt_of_lt_of_le hd1 hcond.2)

theorem firstStepH1_pos {n : ℕ} (rk : RungeKutta n) (f : DydxFunc n) (xspan : ℝ × ℝ)
    (y0 : Vec n) (tol : Tolerance) (hx : xspan.1 < xspan.2) :
    0 < firstStepH1 rk f xspan y0 tol := by
  have hh0 := firstStepH0_pos f xspan y0 tol hx
  unfold firstStepH1
  dsimp only
  split
  · exact lt_max_of_lt_left (by norm_num)
  · rename_i hcond
    push_neg at hcond
    refine Real.rpow_pos_of_pos ?_ _
    have hd1 : (0 : ℝ) ≤ Real.sqrt ((∑ i, (f xspan.1 y0 i /
        (tol.abs + |y0 i| * tol.rel)) ^ 2) / n) := Real.sqrt_nonneg _
    rcases le_or_lt (Real.sqrt ((∑ i, (f xspan.1 y0 i /
        (tol.abs + |y0 i| * tol.rel)) ^ 2) / n)) 1e-15 with hle | hgt
    · have hd2 := hcond hle
      have : (0 : ℝ) < 1e-15 := by norm_num
      exact div_pos (by norm_num) (lt_max_of_lt_right (lt_of_lt_of_le this (le_of_lt hd2)))
    · exact div_pos (by norm_num) (lt_max_of_lt_left (by linarith))

theorem getFirstStep_pos {n : ℕ} (rk : RungeKutta n) (f : DydxFunc n) (xspan : ℝ × ℝ)
    (y0 : Vec n) (tol : Tolerance) (hx : xspan.1 < xspan.2) :
    0 < getFirstStep rk f xspan y0 tol := by
  rw [getFirstStep_eq]
  exact lt_min (lt_min (by nlinarith [firstStepH0_pos f xspan y0 tol hx])
    (firstStepH1_pos rk f xspan y0 tol hx)) (by linarith)

/-- Claim C7: for every `x0 < xEnd` and non-empty `y0`, `getFirstStep`
returns a strictly positive step size no larger than the interval length
`xEnd - x0`, and its value equals `min(100*h0, h1, interval length)` where
`h0` and `h1` are the Hairer/Nørsett/Wanner intermediates (`firstStepH0`,
`firstStepH1`). -/
theorem claimC7_getFirstStep {n : ℕ} (rk : RungeKutta n) (f : DydxFunc n)
    (xspan : ℝ × ℝ) (y0 : Vec n) (tol : Tolerance)
    (hn : 0 < n) (hx : xspan.1 < xspan.2) :
    0 < getFirstStep rk f xspan y0 tol
    ∧ getFirstStep rk f xspan y0 tol ≤ xspan.2 - xspan.1
    ∧ getFirstStep rk f xspan y0 tol =
        min (min (100 * firstStepH0 f xspan y0 tol) (firstStepH1 rk f xspan y0 tol))
          (xspan.2 - xspan.1) :=
  ⟨getFirstStep_pos rk f xspan y0 tol hx,
   by rw [getFirstStep_eq]; exact min_le_right _ _,
   getFirstStep_eq rk f xspan y0 tol⟩

/-- Witness for claim C7 at `f = 0`, `y0 = 0`, `xspan = (0, 1)`. -/
theorem claimC7_witness :
    0 < getFirstStep (dormandPrince 1) (zeroDydx 1) (0, 1) (zeroVec 1) ⟨1e-6, 1e-3⟩
    ∧ getFirstStep (dormandPrince 1) (zeroDydx 1) (0, 1) (zeroVec 1) ⟨1e-6, 1e-3⟩ ≤ 1 - 0 :=
  ⟨(claimC7_getFirstStep (dormandPrince 1) (zeroDydx 1) (0, 1) (zeroVec 1) ⟨1e-6, 1e-3⟩
      (by norm_num) (by norm_num)).1,
   (claimC7_getFirstStep (dormandPrince 1) (zeroDydx 1) (0, 1) (zeroVec 1) ⟨1e-6, 1e-3⟩
      (by norm_num) (by norm_num)).2.1⟩

theorem stepLoop_fuelZero {n : ℕ} (rk : RungeKutta n) (f : DydxFunc n) (x : ℝ)
    (y : Vec n) (xMax : ℝ) (tol : Tolerance) (h : ℝ) (r : Bool) :
    rungeKuttaStepLoop rk f x y xMax tol 0 h r = none :=
  rfl

theorem stepLoop_guard {n : ℕ} (rk : RungeKutta n) (f : DydxFunc n) (x : ℝ)
    (y : Vec n) (xMax : ℝ) (tol : Tolerance) (fuel : ℕ) (h : ℝ) (r : Bool)
    (hlt : h < 10 * |ulp x|) :
    rungeKuttaStepLoop rk f x y xMax tol (fuel + 1) h r = some (.error .tooSmallStep) := by
  rw [rungeKuttaStepLoop]
  exact if_pos hlt

theorem stepLoop_accept {n : ℕ} (rk : RungeKutta n) (f : DydxFunc n) (x : ℝ)
    (y : Vec n) (xMax : ℝ) (tol : Tolerance) (fuel : ℕ) (h : ℝ) (r : Bool)
    (hge : ¬ h < 10 * |ulp x|)
    (hacc : errorNorm rk f x y tol (clampH x h xMax) < 1) :
    rungeKuttaStepLoop rk f x y xMax tol (fuel + 1) h r =
      some (.ok (clampX x h xMax,
        (rk.yPlusH f x y (clampH x h xMax)).1,
        (rk.yPlusH f x y (clampH x h xMax)).2,
        clampH x h xMax *
          acceptFactor rk.errorOrder (errorNorm rk f x y tol (clampH x h xMax)) r)) := by
  rw [rungeKuttaStepLoop]
  dsimp only
  rw [if_neg hge, if_pos hacc]

theorem stepLoop_reject {n : ℕ} (rk : RungeKutta n) (f : DydxFunc n) (x : ℝ)
    (y : Vec n) (xMax : ℝ) (tol : Tolerance) (fuel : ℕ) (h : ℝ) (r : Bool)
    (hge : ¬ h < 10 * |ulp x|)
    (hrej : ¬ errorNorm rk f x y tol (clampH x h xMax) < 1) :
    rungeKuttaStepLoop rk f x y xMax tol (fuel + 1) h r =
      rungeKuttaStepLoop rk f x y xMax tol fuel
        (clampH x h xMax *
          rejectFactor rk.errorOrder (errorNorm rk f x y tol (clampH x h xMax))) true := by
  rw [rungeKuttaStepLoop]
  dsimp only
  rw [if_neg hge, if_neg hrej]

theorem ulp_zero : ulp 0 = (2 : ℝ) ^ (-1074 : ℤ) := by
  simp [ulp]

theorem ulp_one : ulp 1 = (2 : ℝ) ^ (-52 : ℤ) := by
  unfold ulp
  rw [if_neg (by norm_num)]
  norm_num [Real.logb_one]

theorem minStep_at_zero_small : 10 * |ulp (0 : ℝ)| ≤ 1e-6 := by
  rw [ulp_zero, abs_of_pos (by positivity)]
  have h1 : (2 : ℝ) ^ (-1074 : ℤ) ≤ (2 : ℝ) ^ (-24 : ℤ) :=
    zpow_le_zpow_right₀ (by norm_num) (by norm_num)
  have h2 : (2 : ℝ) ^ (-24 : ℤ) = 16777216⁻¹ := by
    rw [zpow_neg]
    norm_num
  nlinarith [h1, h2.le, h2.ge]

/-- Claim C2: the step controller computes
`errorNorm = sqrt((1/n) * Σ (te[m]*h/scale[m])²)` with
`scale[m] = tol.abs + tol.rel * max(|y[m]|, |yPlusH[m]|)`; it accepts exactly
when `errorNorm < 1`, proposing next step `h * factor` with
`factor = min(safety * errorNorm^exponent, maxFactor)`
(`exponent = -1/(errorOrder+1)`), `factor = maxFactor` at zero error norm,
clamped to at most 1 after a rejection; otherwise it rejects and retries the
same `(x, y)` with `h * max(safety * errorNorm^exponent, minFactor)`;
`safety = 0.9`, `maxFactor = 10`, `minFactor = 0.2`.  Stated for a step with
no interval clamping (`x + h ≤ xMax`). -/
theorem claimC2_controller {n : ℕ} (rk : RungeKutta n) (f : DydxFunc n) (x : ℝ)
    (y : Vec n) (xMax : ℝ) (tol : Tolerance) (fuel : ℕ) (h : ℝ) (r : Bool)
    (hge : ¬ h < 10 * |ulp x|) (hnc : ¬ x + h > xMax) :
    errorNorm rk f x y tol h =
      Real.sqrt ((∑ i, ((rk.yPlusH f x y h).2 i * h /
        (tol.abs + tol.rel * max |y i| |(rk.yPlusH f x y h).1 i|)) ^ 2) / n)
    ∧ (errorNorm rk f x y tol h < 1 →
        rungeKuttaStepLoop rk f x y xMax tol (fuel + 1) h r =
          some (.ok (x + h, (rk.yPlusH f x y h).1, (rk.yPlusH f x y h).2,
            h * acceptFactor rk.errorOrder (errorNorm rk f x y tol h) r)))
    ∧ (∀ en : ℝ, en ≠ 0 → acceptFactor rk.errorOrder en r =
        if r then min 1 (min (0.9 * en ^ (-1 / ((rk.errorOrder : ℝ) + 1))) 10)
        else min (0.9 * en ^ (-1 / ((rk.errorOrder : ℝ) + 1))) 10)
    ∧ (∀ r' : Bool, acceptFactor rk.errorOrder 0 r' = if r' then 1 else 10)
    ∧ (∀ en : ℝ, rejectFactor rk.errorOrder en =
        max (0.9 * en ^ (-1 / ((rk.errorOrder : ℝ) + 1))) 0.2)
    ∧ (¬ errorNorm rk f x y tol h < 1 →
        rungeKuttaStepLoop rk f x y xMax tol (fuel + 1) h r =
          rungeKuttaStepLoop rk f x y xMax tol fuel
            (h * rejectFactor rk.errorOrder (errorNorm rk f x y tol h)) true) := by
  have hch : clampH x h xMax = h := if_neg hnc
  have hcx : clampX x h xMax = x + h := if_neg hnc
  refine ⟨rfl, ?_, ?_, ?_, fun _ => rfl, ?_⟩
  · intro hacc
    rw [stepLoop_accept rk f x y xMax tol fuel h r hge (by rw [hch]; exact hacc), hch, hcx]
  · intro en hen
    unfold acceptFactor
    rw [if_neg hen]
  · intro r'
    unfold acceptFactor
    rw [if_pos rfl]
    cases r' <;> norm_num
  · intro hrej
    rw [stepLoop_reject rk f x y xMax tol fuel h r hge (by rw [hch]; exact hrej), hch]

/-- Witness for claim C2: a concrete accepted step with zero error norm
(zero derivative) from `x = 0` with `h = 1`, `xMax = 2`. -/
theorem claimC2_witness :
    rungeKuttaStepLoop (dormandPrince 1) (zeroDydx 1) 0 (zeroVec 1) 2 ⟨1e-6, 1e-3⟩ 1 1 false
      = some (.ok (0 + 1, zeroVec 1, zeroVec 1, 1 * acceptFactor 4 0 false)) := by
  have hge : ¬ (1 : ℝ) < 10 * |ulp (0 : ℝ)| := by
    have := minStep_at_zero_small
    intro hcon
    nlinarith
  have hc := claimC2_controller (dormandPrince 1) (zeroDydx 1) 0 (zeroVec 1) 2
    ⟨1e-6, 1e-3⟩ 0 1 false hge (by norm_num)
  have hacc : errorNorm (dormandPrince 1) (zeroDydx 1) 0 (zeroVec 1) ⟨1e-6, 1e-3⟩ 1 < 1 := by
    rw [errorNorm_zeroDydx]
    norm_num
  have hres := hc.2.1 hacc
  rw [errorNorm_zeroDydx] at hres
  have hyp : (dormandPrince 1).yPlusH (zeroDydx 1) 0 (zeroVec 1) 1 = (zeroVec 1, zeroVec 1) := by
    show dpStep (zeroDydx 1) 0 (zeroVec 1) 1 = (zeroVec 1, zeroVec 1)
    exact dpStep_zero 0 (zeroVec 1) 1
  rw [hyp] at hres
  exact hres

/-- Claim C3: a step attempt fails with the `ErrTooSmallStep` error exactly
when the candidate step size falls below `10 * (machine epsilon relative to
x)`: (i) a candidate below the floor fails immediately; (ii) a candidate at
or above the floor never fails at this attempt — an error can only come from
a later, shrunken retry candidate; (iii) every error the step loop returns is
`ErrTooSmallStep`; (iv) on failure the integration call surfaces only the
error: both returned trajectories are empty. -/
theorem claimC3_stepTooSmall {n : ℕ} (rk : RungeKutta n) (f : DydxFunc n) (x : ℝ)
    (y : Vec n) (xMax : ℝ) (tol : Tolerance) :
    (∀ fuel h r, h < 10 * |ulp x| →
      rungeKuttaStepLoop rk f x y xMax tol (fuel + 1) h r = some (.error .tooSmallStep))
    ∧ (∀ fuel h r e, ¬ h < 10 * |ulp x| →
        rungeKuttaStepLoop rk f x y xMax tol (fuel + 1) h r = some (.error e) →
        ¬ errorNorm rk f x y tol (clampH x h xMax) < 1
        ∧ rungeKuttaStepLoop rk f x y xMax tol fuel
            (clampH x h xMax * rejectFactor rk.errorOrder
              (errorNorm rk f x y tol (clampH x h xMax))) true = some (.error e))
    ∧ (∀ fuel h r e, rungeKuttaStepLoop rk f x y xMax tol fuel h r = some (.error e) →
        e = .tooSmallStep)
    ∧ (∀ xspan y0 fuel sfuel xs ys e,
        rungeKuttaIntegrate rk f xspan y0 fuel sfuel = some (xs, ys, some e) →
        xs = [] ∧ ys = []) := by
  refine ⟨fun fuel h r hlt => stepLoop_guard rk f x y xMax tol fuel h r hlt, ?_, ?_, ?_⟩
  · intro fuel h r e hge herr
    by_cases hacc : errorNorm rk f x y tol (clampH x h xMax) < 1
    · rw [stepLoop_accept rk f x y xMax tol fuel h r hge hacc] at herr
      simp at herr
    · rw [stepLoop_reject rk f x y xMax tol fuel h r hge hacc] at herr
      exact ⟨hacc, herr⟩
  · intro fuel h r e _
    cases e
    rfl
  · intro xspan y0 fuel sfuel xs ys e hres
    unfold rungeKuttaIntegrate at hres
    dsimp only at hres
    cases hd : driverLoop rk f xspan.2 ⟨1e-6, 1e-3⟩ sfuel fuel xspan.1 y0
        (getFirstStep rk f xspan y0 ⟨1e-6, 1e-3⟩) with
    | none => rw [hd] at hres; cases hres
    | some r' =>
      cases r' with
      | error e' =>
        rw [hd] at hres
        simp only [Option.some.injEq, Prod.mk.injEq] at hres
        exact ⟨hres.1.symm, hres.2.1.symm⟩
      | ok p =>
        rw [hd] at hres
        simp at hres

/-- Witness for claim C3: at `x = 1` the floor is `10 * 2^(-52)`, and a
candidate step `h = 2^(-60)` below it fails at once with `ErrTooSmallStep`. -/
theorem claimC3_witness :
    (2 : ℝ) ^ (-60 : ℤ) < 10 * |ulp (1 : ℝ)|
    ∧ rungeKuttaStepLoop (dormandPrince 1) (zeroDydx 1) 1 (zeroVec 1) 2 ⟨1e-6, 1e-3⟩ 1
        ((2 : ℝ) ^ (-60 : ℤ)) false = some (.error .tooSmallStep) := by
  have hlt : (2 : ℝ) ^ (-60 : ℤ) < 10 * |ulp (1 : ℝ)| := by
    rw [ulp_one, abs_of_pos (by positivity)]
    have h1 : (2 : ℝ) ^ (-60 : ℤ) ≤ (2 : ℝ) ^ (-52 : ℤ) :=
      zpow_le_zpow_right₀ (by norm_num) (by norm_num)
    have h2 : (0 : ℝ) < (2 : ℝ) ^ (-52 : ℤ) := zpow_pos (by norm_num) _
    nlinarith
  exact ⟨hlt,
    (claimC3_stepTooSmall (dormandPrince 1) (zeroDydx 1) 1 (zeroVec 1) 2 ⟨1e-6, 1e-3⟩).1
      0 _ false hlt⟩

theorem stepLoop_ok_bounds {n : ℕ} (rk : RungeKutta n) (f : DydxFunc n) (x : ℝ)
    (y : Vec n) (xMax : ℝ) (tol : Tolerance) :
    ∀ (fuel : ℕ) (h : ℝ) (r : Bool) (xph : ℝ) (yph te : Vec n) (nh : ℝ),
      rungeKuttaStepLoop rk f x y xMax tol fuel h r = some (.ok (xph, yph, te, nh)) →
      x < xMax → x < xph ∧ xph ≤ xMax := by
  intro fuel
  induction fuel with
  | zero =>
    intro h r xph yph te nh heq
    rw [stepLoop_fuelZero] at heq
    cases heq
  | succ fuel ih =>
    intro h r xph yph te nh heq hx
    by_cases hlt : h < 10 * |ulp x|
    · rw [stepLoop_guard rk f x y xMax tol fuel h r hlt] at heq
      simp at heq
    · by_cases hacc : errorNorm rk f x y tol (clampH x h xMax) < 1
      · rw [stepLoop_accept rk f x y xMax tol fuel h r hlt hacc] at heq
        simp only [Option.some.injEq, Except.ok.injEq, Prod.mk.injEq] at heq
        obtain ⟨hx1, -, -, -⟩ := heq
        unfold clampX at hx1
        by_cases hov : x + h > xMax
        · rw [if_pos hov] at hx1
          exact ⟨hx1 ▸ hx, le_of_eq hx1.symm⟩
        · rw [if_neg hov] at hx1
          have hpos : 0 < h := lt_of_lt_of_le (minStep_pos x) (not_lt.mp hlt)
          exact ⟨hx1 ▸ (by linarith), hx1 ▸ not_lt.mp hov⟩
      · rw [stepLoop_reject rk f x y xMax tol fuel h r hlt hacc] at heq
        exact ih _ _ _ _ _ _ heq hx

theorem driverLoop_fuelZero {n : ℕ} (rk : RungeKutta n) (f : DydxFunc n) (xMax : ℝ)
    (tol : Tolerance) (sfuel : ℕ) (x : ℝ) (y : Vec n) (h : ℝ) :
    driverLoop rk f xMax tol sfuel 0 x y h = none :=
  rfl

theorem driverLoop_inv {n : ℕ} (rk : RungeKutta n) (f : DydxFunc n) (xMax : ℝ)
    (tol : Tolerance) (sfuel : ℕ) :
    ∀ (fuel : ℕ) (x : ℝ) (y : Vec n) (h : ℝ) (xs : List ℝ) (ys : List (Vec n)),
      driverLoop rk f xMax tol sfuel fuel x y h = some (.ok (xs, ys)) →
      List.Chain' (· < ·) (x :: xs)
      ∧ ys.length = xs.length
      ∧ (∀ a ∈ xs, a ≤ xMax)
      ∧ (x < xMax → xs.getLast? = some xMax)
      ∧ (¬ x < xMax → xs = []) := by
  intro fuel
  induction fuel with
  | zero =>
    intro x y h xs ys heq
    rw [driverLoop_fuelZero] at heq
    cases heq
  | succ fuel ih =>
    intro x y h xs ys heq
    rw [driverLoop] at heq
    by_cases hx : x < xMax
    · rw [if_pos hx] at heq
      cases hstep : rungeKuttaStepLoop rk f x y xMax tol sfuel h false with
      | none => rw [hstep] at heq; cases heq
      | some res =>
        cases res with
        | error e => rw [hstep] at heq; simp at heq
        | ok q =>
          obtain ⟨xph, yph, te, nh⟩ := q
          rw [hstep] at heq
          dsimp only at heq
          cases hrec : driverLoop rk f xMax tol sfuel fuel xph yph nh with
          | none => rw [hrec] at heq; cases heq
          | some res2 =>
            cases res2 with
            | error e => rw [hrec] at heq; simp at heq
            | ok p =>
              obtain ⟨xs', ys'⟩ := p
              rw [hrec] at heq
              simp only [Option.some.injEq, Except.ok.injEq, Prod.mk.injEq] at heq
              obtain ⟨hxs, hys⟩ := heq
              subst hxs
              subst hys
              have hb := stepLoop_ok_bounds rk f x y xMax tol sfuel h false
                xph yph te nh hstep hx
              have hi := ih xph yph nh xs' ys' hrec
              refine ⟨List.chain'_cons.mpr ⟨hb.1, hi.1⟩, by simp [hi.2.1], ?_, ?_, ?_⟩
              · intro a ha
                rcases List.mem_cons.mp ha with rfl | ha'
                · exact hb.2
                · exact hi.2.2.1 a ha'
              · intro _
                by_cases hxp : xph < xMax
                · have hlast := hi.2.2.2.1 hxp
                  cases xs' with
                  | nil => simp at hlast
                  | cons a t => rw [List.getLast?_cons_cons]; exact hlast
                · have hnil := hi.2.2.2.2 hxp
                  subst hnil
                  have : xph = xMax := le_antisymm hb.2 (not_lt.mp hxp)
                  simp [this]
              · intro hc
                exact absurd hx hc
    · rw [if_neg hx] at heq
      simp only [Option.some.injEq, Except.ok.injEq, Prod.mk.injEq] at heq
      obtain ⟨hxs, hys⟩ := heq
      subst hxs
      subst hys
      exact ⟨List.chain'_singleton x, rfl, by simp, fun hc => absurd hc hx, fun _ => rfl⟩

/-- Claim C1: for every successful integration with `x0 < xEnd` and a
non-empty state vector, the returned `xs` is strictly increasing, `xs[0]`
equals `x0`, the last element of `xs` equals `xEnd` exactly, `ys` is parallel
to `xs` (same length) and `ys[0] = y0`. -/
theorem claimC1_trajectory {n : ℕ} (f : DydxFunc n) (x0 xEnd : ℝ) (y0 : Vec n)
    (fuel sfuel : ℕ) (xs : List ℝ) (ys : List (Vec n))
    (hn : 0 < n) (hx : x0 < xEnd)
    (hres : DormandPrince f (x0, xEnd) y0 fuel sfuel = some (xs, ys, none)) :
    List.Chain' (· < ·) xs ∧ xs.head? = some x0 ∧ xs.getLast? = some xEnd
    ∧ ys.length = xs.length ∧ ys.head? = some y0 := by
  unfold DormandPrince rungeKuttaIntegrate at hres
  dsimp only at hres
  cases hd : driverLoop (dormandPrince n) f (x0, xEnd).2 ⟨1e-6, 1e-3⟩ sfuel fuel
      (x0, xEnd).1 y0 (getFirstStep (dormandPrince n) f (x0, xEnd) y0 ⟨1e-6, 1e-3⟩) with
  | none => rw [hd] at hres; cases hres
  | some res =>
    cases res with
    | error e => rw [hd] at hres; simp at hres
    | ok p =>
      obtain ⟨xs', ys'⟩ := p
      rw [hd] at hres
      simp only [Option.some.injEq, Prod.mk.injEq] at hres
      obtain ⟨hxs, hys, -⟩ := hres
      subst hxs
      subst hys
      have hi := driverLoop_inv (dormandPrince n) f (x0, xEnd).2 ⟨1e-6, 1e-3⟩ sfuel
        fuel (x0, xEnd).1 y0 _ xs' ys' hd
      refine ⟨hi.1, rfl, ?_, by simp [hi.2.1], rfl⟩
      have hlast := hi.2.2.2.1 hx
      cases xs' with
      | nil => simp at hlast
      | cons a t => rw [List.getLast?_cons_cons]; exact hlast

theorem acceptFactor_zero_false (order : ℕ) : acceptFactor order 0 false = 10 := by
  unfold acceptFactor
  simp

theorem firstStep_zero_eval :
    getFirstStep (dormandPrince 1) (zeroDydx 1) (0, 1e-6) (zeroVec 1) ⟨1e-6, 1e-3⟩ = 1e-6 := by
  unfold getFirstStep
  dsimp only
  norm_num [zeroDydx, zeroVec, Real.sqrt_zero]

theorem step_zero_eval {n : ℕ} (x h xMax : ℝ) (y : Vec n) (fuel : ℕ)
    (hge : ¬ h < 10 * |ulp x|) (hnc : ¬ x + h > xMax) :
    rungeKuttaStepLoop (dormandPrince n) (zeroDydx n) x y xMax ⟨1e-6, 1e-3⟩ (fuel + 1) h false
      = some (.ok (x + h, y, zeroVec n, h * 10)) := by
  have hacc : errorNorm (dormandPrince n) (zeroDydx n) x y ⟨1e-6, 1e-3⟩ (clampH x h xMax) < 1 := by
    rw [errorNorm_zeroDydx]
    norm_num
  rw [stepLoop_accept _ _ _ _ _ _ fuel h false hge hacc]
  have hch : clampH x h xMax = h := if_neg hnc
  have hcx : clampX x h xMax = x + h := if_neg hnc
  rw [hch, hcx, errorNorm_zeroDydx]
  have hyp : (dormandPrince n).yPlusH (zeroDydx n) x y h = (y, zeroVec n) :=
    dpStep_zero x y h
  rw [hyp, acceptFactor_zero_false]

theorem integrate_zero_eval :
    DormandPrince (zeroDydx 1) (0, 1e-6) (zeroVec 1) 2 1
      = some ([0, 1e-6], [zeroVec 1, zeroVec 1], none) := by
  unfold DormandPrince rungeKuttaIntegrate
  dsimp only
  rw [firstStep_zero_eval]
  have hge : ¬ (1e-6 : ℝ) < 10 * |ulp (0 : ℝ)| := by
    have := minStep_at_zero_small
    intro hcon
    nlinarith
  have hstep := step_zero_eval (n := 1) 0 1e-6 1e-6 (zeroVec 1) 0 hge (by norm_num)
  rw [show (2 : ℕ) = 1 + 1 from rfl, driverLoop, if_pos (by norm_num : (0:ℝ) < 1e-6)]
  rw [show (1 : ℕ) = 0 + 1 from rfl] at hstep ⊢
  rw [hstep]
  dsimp only
  rw [driverLoop, if_neg (by norm_num : ¬ (0 : ℝ) + 1e-6 < 1e-6)]
  dsimp only
  norm_num

/-- Witness for claim C1: the concrete successful integration of the zero
derivative over `[0, 1e-6]`, whose trajectory is `[0, 1e-6]`. -/
theorem claimC1_witness :
    List.Chain' (· < ·) [(0 : ℝ), 1e-6]
    ∧ [(0 : ℝ), 1e-6].head? = some 0
    ∧ [(0 : ℝ), 1e-6].getLast? = some 1e-6
    ∧ [zeroVec 1, zeroVec 1].length = [(0 : ℝ), 1e-6].length
    ∧ [zeroVec 1, zeroVec 1].head? = some (zeroVec 1) :=
  claimC1_trajectory (zeroDydx 1) 0 1e-6 (zeroVec 1) 2 1 [0, 1e-6]
    [zeroVec 1, zeroVec 1] (by norm_num) (by norm_num) integrate_zero_eval

/-- Claim C6 counterexample: an accepted step from `x = 0` with proposed
`h = 2` clamped to `xMax = 1` (zero derivative, so the error norm is 0 and
`factor = 10`).  The code proposes next step `(xMax - x) * 10 = 10` — derived
from the clamped step size — while the claim predicts the unclamped-derived
`h * 10 = 20`. -/
theorem claimC6_counterexample :
    rungeKuttaStepLoop (dormandPrince 1) (zeroDydx 1) 0 (zeroVec 1) 1 ⟨1e-6, 1e-3⟩ 1 2 false
      = some (.ok (1, zeroVec 1, zeroVec 1, 10))
    ∧ (10 : ℝ) ≠ 2 * 10 := by
  constructor
  · have hge : ¬ (2 : ℝ) < 10 * |ulp (0 : ℝ)| := by
      have := minStep_at_zero_small
      intro hcon
      nlinarith
    have hacc : errorNorm (dormandPrince 1) (zeroDydx 1) 0 (zeroVec 1) ⟨1e-6, 1e-3⟩
        (clampH 0 2 1) < 1 := by
      rw [errorNorm_zeroDydx]
      norm_num
    rw [show (1 : ℕ) = 0 + 1 from rfl,
      stepLoop_accept _ _ _ _ _ _ 0 2 false hge hacc,
      errorNorm_zeroDydx, acceptFactor_zero_false]
    have hch : clampH 0 2 1 = 1 - 0 := if_pos (by norm_num)
    have hcx : clampX 0 2 1 = (1 : ℝ) := if_pos (by norm_num)
    rw [hch, hcx,
      show ((dormandPrince 1).yPlusH (zeroDydx 1) 0 (zeroVec 1) (1 - 0)) =
        (zeroVec 1, zeroVec 1) from dpStep_zero _ _ _]
    norm_num
  · norm_num

/-- Claim C6 amended: when an accepted step would overshoot `xEnd` and is
clamped, the step size the controller proposes for the next step IS derived
from the clamped step size: `newH = (xMax - x) * factor`, with the factor
computed from the error norm of the clamped step. -/
theorem claimC6_amended {n : ℕ} (rk : RungeKutta n) (f : DydxFunc n) (x : ℝ)
    (y : Vec n) (xMax : ℝ) (tol : Tolerance) (fuel : ℕ) (h : ℝ) (r : Bool)
    (hge : ¬ h < 10 * |ulp x|) (hov : x + h > xMax)
    (hacc : errorNorm rk f x y tol (xMax - x) < 1) :
    rungeKuttaStepLoop rk f x y xMax tol (fuel + 1) h r =
      some (.ok (xMax, (rk.yPlusH f x y (xMax - x)).1, (rk.yPlusH f x y (xMax - x)).2,
        (xMax - x) * acceptFactor rk.errorOrder (errorNorm rk f x y tol (xMax - x)) r)) := by
  have hch : clampH x h xMax = xMax - x := if_pos hov
  have hcx : clampX x h xMax = xMax := if_pos hov
  rw [stepLoop_accept rk f x y xMax tol fuel h r hge (by rw [hch]; exact hacc), hch, hcx]

/-- Witness for the amended claim C6, at the counterexample's concrete input. -/
theorem claimC6_amended_witness :
    rungeKuttaStepLoop (dormandPrince 1) (zeroDydx 1) 0 (zeroVec 1) 1 ⟨1e-6, 1e-3⟩ 1 2 false
      = some (.ok (1, ((dormandPrince 1).yPlusH (zeroDydx 1) 0 (zeroVec 1) (1 - 0)).1,
          ((dormandPrince 1).yPlusH (zeroDydx 1) 0 (zeroVec 1) (1 - 0)).2,
          (1 - 0) * acceptFactor (dormandPrince 1).errorOrder
            (errorNorm (dormandPrince 1) (zeroDydx 1) 0 (zeroVec 1) ⟨1e-6, 1e-3⟩ (1 - 0))
            false)) := by
  have hge : ¬ (2 : ℝ) < 10 * |ulp (0 : ℝ)| := by
    have := minStep_at_zero_small
    intro hcon
    nlinarith
  have hacc : errorNorm (dormandPrince 1) (zeroDydx 1) 0 (zeroVec 1) ⟨1e-6, 1e-3⟩
      ((1 : ℝ) - 0) < 1 := by
    rw [errorNorm_zeroDydx]
    norm_num
  rw [show (1 : ℕ) = 0 + 1 from rfl]
  exact claimC6_amended (dormandPrince 1) (zeroDydx 1) 0 (zeroVec 1) 1 ⟨1e-6, 1e-3⟩ 0 2
    false hge (by norm_num) hacc

/-- Claim C10: if `xspan[1] <= xspan[0]`, `DormandPrince` returns the
single-point trajectory `xs = [xspan[0]]`, `ys = [y0]` with no error — the
stepping loop body never runs — while the initial-step estimator still
invokes the derivative function at exactly two argument points. -/
theorem claimC10_degenerateSpan {n : ℕ} (f : DydxFunc n) (xspan : ℝ × ℝ) (y0 : Vec n)
    (fuel sfuel : ℕ) (hspan : xspan.2 ≤ xspan.1) (hfuel : 1 ≤ fuel) :
    DormandPrince f xspan y0 fuel sfuel = some ([xspan.1], [y0], none)
    ∧ (getFirstStepCalls f xspan y0 ⟨1e-6, 1e-3⟩).length = 2 := by
  constructor
  · unfold DormandPrince rungeKuttaIntegrate
    dsimp only
    obtain ⟨m, rfl⟩ : ∃ m, fuel = m + 1 := ⟨fuel - 1, by omega⟩
    rw [driverLoop, if_neg (not_lt.mpr hspan)]
  · rfl

/-- Witness for claim C10 at `xspan = (1, 0)`. -/
theorem claimC10_witness :
    DormandPrince (zeroDydx 1) (1, 0) (zeroVec 1) 1 1 = some ([1], [zeroVec 1], none)
    ∧ (getFirstStepCalls (zeroDydx 1) (1, 0) (zeroVec 1) ⟨1e-6, 1e-3⟩).length = 2 :=
  claimC10_degenerateSpan (zeroDydx 1) (1, 0) (zeroVec 1) 1 1 (by norm_num) (by norm_num)

theorem driverLoopAlloc_fuelZero {n : ℕ} (rk : RungeKutta n) (f : DydxFunc n)
    (xMax : ℝ) (tol : Tolerance) (sfuel yRef teRef : ℕ) (x h : ℝ) (st : Store n) :
    driverLoopAlloc rk f xMax tol sfuel yRef teRef 0 x h st = none :=
  rfl

theorem store_getD_zero_preserved {n : ℕ} (st : Store n) (yph te y' : Vec n)
    (hlen : 3 ≤ st.length) :
    ((((st ++ [(fun _ => 0 : Vec n)]).set st.length yph).set 2 te).set 1 y').getD 0
        (fun _ => 0)
      = st.getD 0 (fun _ => 0) := by
  rw [List.getD_eq_getElem?_getD, List.getD_eq_getElem?_getD,
    List.getElem?_set_ne (by omega), List.getElem?_set_ne (by omega),
    List.getElem?_set_ne (by omega),
    List.getElem?_append_left (by omega : 0 < st.length)]

theorem store_set_length {n : ℕ} (st : Store n) (yph te y' : Vec n) :
    ((((st ++ [(fun _ => 0 : Vec n)]).set st.length yph).set 2 te).set 1 y').length
      = st.length + 1 := by
  simp

theorem driverLoopAlloc_inv {n : ℕ} (rk : RungeKutta n) (f : DydxFunc n) (xMax : ℝ)
    (tol : Tolerance) (sfuel : ℕ) :
    ∀ (fuel : ℕ) (x h : ℝ) (st : Store n) (xs : List ℝ) (ys : List ℕ) (st' : Store n),
      3 ≤ st.length →
      driverLoopAlloc rk f xMax tol sfuel 1 2 fuel x h st = some (.ok (xs, ys, st')) →
      st'.getD 0 (fun _ => 0) = st.getD 0 (fun _ => 0) ∧ ∀ r ∈ ys, 3 ≤ r := by
  intro fuel
  induction fuel with
  | zero =>
    intro x h st xs ys st' hlen heq
    rw [driverLoopAlloc_fuelZero] at heq
    cases heq
  | succ fuel ih =>
    intro x h st xs ys st' hlen heq
    rw [driverLoopAlloc] at heq
    by_cases hx : x < xMax
    · rw [if_pos hx] at heq
      dsimp only at heq
      split at heq
      · cases heq
      · simp at heq
      · rename_i xph yph te nh hstep
        split at heq
        · cases heq
        · simp at heq
        · rename_i xs1 ys1 st4 hrec
          simp only [Option.some.injEq, Except.ok.injEq, Prod.mk.injEq] at heq
          obtain ⟨hxs, hys, hst⟩ := heq
          subst hxs
          subst hys
          subst hst
          have hi := ih xph nh _ xs1 ys1 st4 (by rw [store_set_length]; omega) hrec
          constructor
          · rw [hi.1, store_getD_zero_preserved st yph te _ hlen]
          · intro r hr
            rcases List.mem_cons.mp hr with rfl | hr'
            · exact hlen
            · exact hi.2 r hr'
    · rw [if_neg hx] at heq
      simp only [Option.some.injEq, Except.ok.injEq, Prod.mk.injEq] at heq
      obtain ⟨-, hys, hst⟩ := heq
      subst hys
      subst hst
      exact ⟨rfl, by simp⟩

/-- Claim C9: the integration never writes to the caller's `y0` buffer
(store index 0): its final contents equal `y0`; yet the returned `ys` begins
with a reference to that very buffer (`ys.head? = some 0`, no defensive
copy), so the trajectory's first point and the caller's `y0` share storage,
while every later trajectory entry references a buffer allocated inside the
call (index ≥ 3). -/
theorem claimC9_noWriteToCallerY0 {n : ℕ} (rk : RungeKutta n) (f : DydxFunc n)
    (xspan : ℝ × ℝ) (y0 : Vec n) (fuel sfuel : ℕ) (xs : List ℝ) (ys : List ℕ)
    (st' : Store n)
    (hres : rungeKuttaIntegrateAlloc rk f xspan y0 fuel sfuel = some (xs, ys, st', none)) :
    ys.head? = some 0
    ∧ st'.getD 0 (fun _ => 0) = y0
    ∧ ∀ r ∈ ys.tail, 3 ≤ r := by
  unfold rungeKuttaIntegrateAlloc at hres
  dsimp only at hres
  split at hres
  · cases hres
  · simp at hres
  · rename_i xs0 ys0 st0 hd
    simp only [Option.some.injEq, Prod.mk.injEq] at hres
    obtain ⟨hxs, hys, hst, -⟩ := hres
    subst hys
    subst hst
    have hi := driverLoopAlloc_inv rk f xspan.2 ⟨1e-6, 1e-3⟩ sfuel fuel xspan.1
      (getFirstStep rk f xspan y0 ⟨1e-6, 1e-3⟩)
      ([y0] ++ [y0] ++ [(fun _ => 0 : Vec n)]) xs0 ys0 st0 (by simp) hd
    exact ⟨rfl, hi.1, fun r hr => hi.2 r hr⟩

theorem step_zero_eval' {n : ℕ} (x h xMax : ℝ) (y : Vec n) (fuel : ℕ) (hf : 1 ≤ fuel)
    (hge : ¬ h < 10 * |ulp x|) (hnc : ¬ x + h > xMax) :
    rungeKuttaStepLoop (dormandPrince n) (zeroDydx n) x y xMax ⟨1e-6, 1e-3⟩ fuel h false
      = some (.ok (x + h, y, zeroVec n, h * 10)) := by
  obtain ⟨m, rfl⟩ : ∃ m, fuel = m + 1 := ⟨fuel - 1, by omega⟩
  exact step_zero_eval x h xMax y m hge hnc

theorem integrateAlloc_zero_eval :
    rungeKuttaIntegrateAlloc (dormandPrince 1) (zeroDydx 1) (0, 1e-6) (zeroVec 1) 2 1
      = some ([0, 1e-6], [0, 3],
          [zeroVec 1, zeroVec 1, zeroVec 1, zeroVec 1], none) := by
  have hge : ¬ (1e-6 : ℝ) < 10 * |ulp (0 : ℝ)| := by
    have := minStep_at_zero_small
    intro hcon
    nlinarith
  unfold rungeKuttaIntegrateAlloc
  dsimp only
  rw [firstStep_zero_eval]
  rw [show (2 : ℕ) = 1 + 1 from rfl, driverLoopAlloc, if_pos (by norm_num : (0:ℝ) < 1e-6)]
  dsimp only
  rw [step_zero_eval' 0 1e-6 1e-6 _ 1 (by norm_num) hge (by norm_num)]
  dsimp only
  rw [driverLoopAlloc, if_neg (by norm_num : ¬ (0 : ℝ) + 1e-6 < 1e-6)]
  dsimp only
  norm_num [zeroVec, List.getD]

/-- Witness for claim C9: the zero-derivative run over `[0, 1e-6]`; the
returned `ys` references are `[0, 3]` — the caller's buffer first — and the
caller's buffer still holds `y0`. -/
theorem claimC9_witness :
    ([(0 : ℕ), 3] : List ℕ).head? = some 0
    ∧ ([zeroVec 1, zeroVec 1, zeroVec 1, zeroVec 1] : Store 1).getD 0 (fun _ => 0) = zeroVec 1
    ∧ ∀ r ∈ ([(0 : ℕ), 3] : List ℕ).tail, 3 ≤ r :=
  claimC9_noWriteToCallerY0 (dormandPrince 1) (zeroDydx 1) (0, 1e-6) (zeroVec 1) 2 1
    [0, 1e-6] [0, 3] [zeroVec 1, zeroVec 1, zeroVec 1, zeroVec 1] integrateAlloc_zero_eval

theorem fnAdd_none_left (b : FN) : fnAdd none b = none := by
  cases b <;> rfl

theorem fnAdd_none_right (a : FN) : fnAdd a none = none := by
  cases a <;> rfl

theorem fnMul_none_left (b : FN) : fnMul none b = none := by
  cases b <;> rfl

theorem fnMul_none_right (a : FN) : fnMul a none = none := by
  cases a <;> rfl

theorem fnDiv_none_left (b : FN) : fnDiv none b = none := by
  cases b <;> rfl

theorem fnPow_none_left (b : FN) : fnPow none b = none := by
  cases b <;> rfl

theorem fnMax_none_left (b : FN) : fnMax none b = none := by
  cases b <;> rfl

theorem fnMax_none_right (a : FN) : fnMax a none = none := by
  cases a <;> rfl

theorem not_fnLt_none_left (b : FN) : ¬ fnLt none b := by
  cases b <;> exact fun hh => hh

theorem fnSum_all_none (l : List FN) (hne : l ≠ []) (hall : ∀ a ∈ l, a = none) :
    fnSum l = none := by
  cases l with
  | nil => exact absurd rfl hne
  | cons a t =>
    have ha : a = none := hall a (List.mem_cons_self a t)
    subst ha
    show fnAdd none (fnSum t) = none
    exact fnAdd_none_left _

theorem getD_replicate_lt {α : Type} (m j : ℕ) (a d : α) (hj : j < m) :
    (List.replicate m a).getD j d = a := by
  simp [List.getD_eq_getElem?_getD, List.getElem?_replicate, hj]

theorem dpKN_nan {n : ℕ} (x : FN) (y : Fin n → FN) (h : FN) (i : ℕ) :
    dpKN (nanDydx n) x y h i = List.replicate i (fun _ => none) := by
  induction i with
  | zero => rfl
  | succ i ih =>
    rw [List.replicate_succ']
    show dpKN (nanDydx n) x y h i ++ _ = _
    rw [ih]
    rfl

theorem dpStepN_nan_te {n : ℕ} (x : FN) (y : Fin n → FN) (h : FN) (i : Fin n) :
    (dpStepN (nanDydx n) x y h).2 i = none := by
  show fnSum ((List.range 7).map fun j =>
    fnMul (some (dpE j)) ((dpKN (nanDydx n) x y h 7 |>.getD j fun _ => some 0) i)) = none
  apply fnSum_all_none _ (by simp)
  intro a ha
  simp only [List.mem_map, List.mem_range] at ha
  obtain ⟨j, hj, rfl⟩ := ha
  rw [dpKN_nan, getD_replicate_lt _ _ _ _ hj]
  rfl

theorem errorNormN_nan {n : ℕ} (hn : 0 < n) (x : FN) (y : Fin n → FN)
    (tolAbs tolRel : ℝ) (h : FN) :
    errorNormN (nanDydx n) x y tolAbs tolRel h = none := by
  unfold errorNormN
  dsimp only
  have hsum : fnSum ((List.finRange n).map fun i =>
      fnPow (fnDiv (fnMul ((dpStepN (nanDydx n) x y h).2 i) h)
        (fnAdd (some tolAbs) (fnMul (some tolRel)
          (fnMax (fnAbs (y i)) (fnAbs ((dpStepN (nanDydx n) x y h).1 i))))))
        (some 2)) = none := by
    apply fnSum_all_none _ (by
      intro hcon
      have := congrArg List.length hcon
      simp at this
      omega)
    intro a ha
    simp only [List.mem_map] at ha
    obtain ⟨i, -, rfl⟩ := ha
    rw [dpStepN_nan_te, fnMul_none_left, fnDiv_none_left]
    rfl
  rw [hsum, fnDiv_none_left]
  rfl

theorem stepLoopN_nan_h :
    ∀ (fuel : ℕ) (r : Bool),
      stepLoopN (nanDydx 1) (some 0) (fun _ => some 0) (some 1) 1e-6 1e-3 fuel none r
        = none := by
  intro fuel
  induction fuel with
  | zero => intro r; rfl
  | succ fuel ih =>
    intro r
    rw [stepLoopN]
    dsimp only
    rw [if_neg (not_fnLt_none_left _)]
    rw [errorNormN_nan (by norm_num : (0 : ℕ) < 1)]
    rw [if_neg (not_fnLt_none_left _)]
    rw [fnPow_none_left, fnMul_none_right, fnMax_none_left, fnMul_none_right]
    exact ih true

/-- Claim C4: with a derivative function returning NaN, the NaN error norm
does send the controller into the reject branch (`errorNorm < 1` is false for
NaN) — but the claimed termination fails: the rejection multiplies `h` by the
NaN factor (the Go builtin `max` propagates NaN), after which `h < minStep`
is false forever, so the step routine neither accepts nor signals
`ErrTooSmallStep` for any fuel bound: it stalls forever.  This contradicts
the claim (and the spec's required safety valve), exhibiting a code bug. -/
theorem claimC4_nanStepNeverReturns :
    ∀ (fuel : ℕ) (r : Bool),
      stepLoopN (nanDydx 1) (some 0) (fun _ => some 0) (some 1) 1e-6 1e-3 fuel (some 1) r
        = none := by
  intro fuel r
  cases fuel with
  | zero => rfl
  | succ fuel =>
    rw [stepLoopN]
    dsimp only
    rw [if_neg (show ¬ fnLt (some (1 : ℝ)) (fnMul (some 10) (fnAbs (fnUlp (some (0 : ℝ)))))
      by
        show ¬ (1 : ℝ) < 10 * |ulp (0 : ℝ)|
        have := minStep_at_zero_small
        intro hcon
        nlinarith)]
    rw [errorNormN_nan (by norm_num : (0 : ℕ) < 1)]
    rw [if_neg (not_fnLt_none_left _)]
    rw [fnPow_none_left, fnMul_none_right, fnMax_none_left, fnMul_none_right]
    exact stepLoopN_nan_h fuel true

theorem rejectFactor_le (order : ℕ) (en : ℝ) (hen : 1 ≤ en) :
    rejectFactor order en ≤ 0.9 := by
  unfold rejectFactor
  refine max_le ?_ (by norm_num)
  have hexp : (-1 : ℝ) / ((order : ℝ) + 1) ≤ 0 := by
    apply div_nonpos_of_nonpos_of_nonneg (by norm_num)
    positivity
  have := Real.rpow_le_one_of_one_le_of_nonpos hen hexp
  nlinarith

theorem rejectFactor_pos (order : ℕ) (en : ℝ) : 0 < rejectFactor order en :=
  lt_of_lt_of_le (by norm_num) (le_max_right _ _)

theorem clampH_bounds (x h xMax : ℝ) (hx : x < xMax) (hh : 0 < h) :
    0 < clampH x h xMax ∧ clampH x h xMax ≤ h := by
  unfold clampH
  split
  · rename_i hcond
    exact ⟨by linarith, by linarith⟩
  · exact ⟨hh, le_refl h⟩

theorem stepLoop_alwaysReject_errors {n : ℕ} (f : DydxFunc n) (x : ℝ) (y : Vec n)
    (xMax : ℝ) (tol : Tolerance) (hx : x < xMax)
    (hen : ∀ h, 0 < h → 1 ≤ errorNorm (dormandPrince n) f x y tol h) :
    ∀ (k : ℕ) (h : ℝ) (r : Bool), 0 < h → h * 0.9 ^ k < 10 * |ulp x| →
      ∃ fuel, rungeKuttaStepLoop (dormandPrince n) f x y xMax tol fuel h r
        = some (.error .tooSmallStep) := by
  intro k
  induction k with
  | zero =>
    intro h r hh hlt
    rw [pow_zero, mul_one] at hlt
    exact ⟨1, by
      rw [show (1 : ℕ) = 0 + 1 from rfl]
      exact stepLoop_guard _ _ _ _ _ _ 0 h r hlt⟩
  | succ k ih =>
    intro h r hh hlt
    by_cases hguard : h < 10 * |ulp x|
    · exact ⟨1, by
        rw [show (1 : ℕ) = 0 + 1 from rfl]
        exact stepLoop_guard _ _ _ _ _ _ 0 h r hguard⟩
    · have hcp := clampH_bounds x h xMax hx hh
      have henc := hen (clampH x h xMax) hcp.1
      have hrej : ¬ errorNorm (dormandPrince n) f x y tol (clampH x h xMax) < 1 :=
        not_lt.mpr henc
      have hrf_pos := rejectFactor_pos (dormandPrince n).errorOrder
        (errorNorm (dormandPrince n) f x y tol (clampH x h xMax))
      have hrf_le := rejectFactor_le (dormandPrince n).errorOrder
        (errorNorm (dormandPrince n) f x y tol (clampH x h xMax)) henc
      have hnew_pos : 0 < clampH x h xMax * rejectFactor (dormandPrince n).errorOrder
          (errorNorm (dormandPrince n) f x y tol (clampH x h xMax)) :=
        mul_pos hcp.1 hrf_pos
      have hnew_le : clampH x h xMax * rejectFactor (dormandPrince n).errorOrder
          (errorNorm (dormandPrince n) f x y tol (clampH x h xMax)) ≤ h * 0.9 :=
        mul_le_mul hcp.2 hrf_le (le_of_lt hrf_pos) (le_of_lt hh)
      have hbound : clampH x h xMax * rejectFactor (dormandPrince n).errorOrder
          (errorNorm (dormandPrince n) f x y tol (clampH x h xMax)) * 0.9 ^ k
            < 10 * |ulp x| := by
        have h1 : clampH x h xMax * rejectFactor (dormandPrince n).errorOrder
            (errorNorm (dormandPrince n) f x y tol (clampH x h xMax)) * 0.9 ^ k
              ≤ h * 0.9 * 0.9 ^ k :=
          mul_le_mul_of_nonneg_right hnew_le (by positivity)
        have h2 : h * 0.9 * 0.9 ^ k = h * 0.9 ^ (k + 1) := by ring
        linarith [hlt, h1, h2.le, h2.ge]
      obtain ⟨fuel, hf⟩ := ih _ true hnew_pos hbound
      exact ⟨fuel + 1, by
        rw [stepLoop_reject _ _ _ _ _ _ fuel h r hguard hrej]
        exact hf⟩

/-- Claim C5: for every derivative whose steps always produce an error norm
at least 1 (at the initial point, for every positive candidate step), the
integration terminates by failing with `ErrTooSmallStep` rather than hanging:
each rejection multiplies `h` by `max(0.9 * errorNorm^(-1/5), 0.2) ≤ 0.9 < 1`,
so `h` shrinks geometrically below the minimum-step floor. -/
theorem claimC5_alwaysRejectFails {n : ℕ} (f : DydxFunc n) (x0 xEnd : ℝ) (y0 : Vec n)
    (hx : x0 < xEnd)
    (hen : ∀ h, 0 < h → 1 ≤ errorNorm (dormandPrince n) f x0 y0 ⟨1e-6, 1e-3⟩ h) :
    (∀ en : ℝ, 1 ≤ en → rejectFactor (dormandPrince n).errorOrder en ≤ 0.9)
    ∧ ∃ sfuel, ∀ fuel, 1 ≤ fuel →
        DormandPrince f (x0, xEnd) y0 fuel sfuel = some ([], [], some .tooSmallStep) := by
  refine ⟨fun en h1 => rejectFactor_le _ en h1, ?_⟩
  have h0pos := getFirstStep_pos (dormandPrince n) f (x0, xEnd) y0 ⟨1e-6, 1e-3⟩ hx
  have hms := minStep_pos x0
  obtain ⟨k, hk0⟩ := exists_pow_lt_of_lt_one (div_pos hms h0pos) (by norm_num : (0.9 : ℝ) < 1)
  have hk : getFirstStep (dormandPrince n) f (x0, xEnd) y0 ⟨1e-6, 1e-3⟩ * 0.9 ^ k
      < 10 * |ulp x0| := by
    have h1 := (lt_div_iff₀ h0pos).mp hk0
    nlinarith
  obtain ⟨sfuel, hs⟩ := stepLoop_alwaysReject_errors f x0 y0 xEnd ⟨1e-6, 1e-3⟩ hx hen k
    (getFirstStep (dormandPrince n) f (x0, xEnd) y0 ⟨1e-6, 1e-3⟩) false h0pos hk
  refine ⟨sfuel, ?_⟩
  intro fuel hfuel
  obtain ⟨m, rfl⟩ : ∃ m, fuel = m + 1 := ⟨fuel - 1, by omega⟩
  unfold DormandPrince rungeKuttaIntegrate
  dsimp only
  rw [driverLoop, if_pos hx, hs]

theorem getD_map_range {α : Type} (m j : ℕ) (g : ℕ → α) (d : α) (hj : j < m) :
    ((List.range m).map g).getD j d = g j := by
  rw [List.getD_eq_getElem?_getD, List.getElem?_map, List.getElem?_range hj]
  rfl

theorem dpK_inv (y : Vec 1) (h : ℝ) (i : ℕ) :
    dpK invDydx 0 y h i
      = (List.range i).map (fun j => (fun _ => ((0 + dpC j * h)⁻¹ : ℝ) : Vec 1)) := by
  induction i with
  | zero => rfl
  | succ i ih =>
    rw [List.range_succ, List.map_append, List.map_singleton]
    show dpK invDydx 0 y h i ++ _ = _
    rw [ih]
    rfl

theorem invDydx_te_mul_h (h : ℝ) (hne : h ≠ 0) :
    (dpStep invDydx 0 (fun _ => 1) h).2 0 * h
      = (142 / 10017 : ℝ) - 71 / 1536 + 155277 / 2713600 - 22 / 525 + 1 / 40 := by
  have hstages : ∀ j : ℕ, j < 7 →
      ((dpK invDydx 0 (fun _ => 1) h 7).getD j fun _ => 0)
        = (fun _ => ((0 + dpC j * h)⁻¹ : ℝ) : Vec 1) := by
    intro j hj
    rw [dpK_inv, getD_map_range 7 j _ _ hj]
  rw [dpStep_snd]
  dsimp only
  rw [Finset.sum_range_succ, Finset.sum_range_succ, Finset.sum_range_succ,
    Finset.sum_range_succ, Finset.sum_range_succ, Finset.sum_range_succ,
    Finset.sum_range_succ, Finset.sum_range_zero]
  rw [hstages 0 (by norm_num), hstages 1 (by norm_num), hstages 2 (by norm_num),
    hstages 3 (by norm_num), hstages 4 (by norm_num), hstages 5 (by norm_num),
    hstages 6 (by norm_num)]
  dsimp only
  simp only [dpE, dpC]
  rw [show ((0 : ℝ) + 0 * h)⁻¹ = 0 by rw [zero_mul, add_zero, inv_zero]]
  field_simp
  ring

theorem invDydx_yPlusH (h : ℝ) (hne : h ≠ 0) :
    (dpStep invDydx 0 (fun _ => 1) h).1 0
      = 1 + ((5000 / 3339 : ℝ) + 625 / 768 - 19683 / 54272 + 11 / 84) := by
  have hstages : ∀ j : ℕ, j < 7 →
      ((dpK invDydx 0 (fun _ => 1) h 7).getD j fun _ => 0)
        = (fun _ => ((0 + dpC j * h)⁻¹ : ℝ) : Vec 1) := by
    intro j hj
    rw [dpK_inv, getD_map_range 7 j _ _ hj]
  rw [dpStep_fst]
  dsimp only
  rw [Finset.sum_range_succ, Finset.sum_range_succ, Finset.sum_range_succ,
    Finset.sum_range_succ, Finset.sum_range_succ, Finset.sum_range_succ,
    Finset.sum_range_succ, Finset.sum_range_zero]
  rw [hstages 0 (by norm_num), hstages 1 (by norm_num), hstages 2 (by norm_num),
    hstages 3 (by norm_num), hstages 4 (by norm_num), hstages 5 (by norm_num),
    hstages 6 (by norm_num)]
  dsimp only
  simp only [dpB, dpC]
  rw [show ((0 : ℝ) + 0 * h)⁻¹ = 0 by rw [zero_mul, add_zero, inv_zero]]
  field_simp
  ring

theorem invDydx_errorNorm_ge_one :
    ∀ h : ℝ, 0 < h →
      1 ≤ errorNorm (dormandPrince 1) invDydx 0 (fun _ => 1) ⟨1e-6, 1e-3⟩ h := by
  intro h hh
  have hne : h ≠ 0 := ne_of_gt hh
  unfold errorNorm dormandPrince
  dsimp only
  rw [Fin.sum_univ_one, invDydx_te_mul_h h hne, invDydx_yPlusH h hne]
  have hmax : max |(1 : ℝ)| |1 + ((5000 / 3339 : ℝ) + 625 / 768 - 19683 / 54272 + 11 / 84)|
      = 1 + ((5000 / 3339 : ℝ) + 625 / 768 - 19683 / 54272 + 11 / 84) := by
    rw [abs_one, abs_of_pos (by norm_num)]
    exact max_eq_right (by norm_num)
  rw [hmax, Nat.cast_one, div_one, Real.sqrt_sq (by norm_num)]
  rw [le_div_iff₀ (by norm_num)]
  norm_num

/-- Witness for claim C5: the derivative `f(x, y) = x⁻¹` from `x0 = 0` has a
step-size-independent error norm of about 2.68 ≥ 1, and its integration over
`[0, 1]` fails with `ErrTooSmallStep`. -/
theorem claimC5_witness :
    (∀ h : ℝ, 0 < h →
      1 ≤ errorNorm (dormandPrince 1) invDydx 0 (fun _ => 1) ⟨1e-6, 1e-3⟩ h)
    ∧ ∃ sfuel, DormandPrince invDydx (0, 1) (fun _ => 1) 1 sfuel
        = some ([], [], some .tooSmallStep) := by
  refine ⟨invDydx_errorNorm_ge_one, ?_⟩
  obtain ⟨sfuel, hs⟩ := (claimC5_alwaysRejectFails invDydx 0 1 (fun _ => 1)
    (by norm_num) invDydx_errorNorm_ge_one).2
  exact ⟨sfuel, hs 1 le_rfl⟩
